import Mathlib

/-!
Shallow embedding of `src/AT45BlockDevice.h` (class `AT45BlockDevice`), a
byte-addressable block-device adapter over a page-granular AT45 flash chip.

Modelling conventions:
* Machine integers become `Nat` / `Int`.  All page indices, offsets and
  lengths computed by the source stay far below `2^32` for every in-bounds
  request, so the `uint32_t` truncations in the source are no-ops on the
  domains of all theorems below; they are therefore not written out.
* The chip driver (`at45.read_page` / `at45.write_page`) is modelled by a
  `Flash` record: page contents as a function of page index and byte offset,
  plus per-page integer result codes for the two primitives.  A primitive
  call with result code 0 succeeds; a nonzero code is a hardware error.
  `write_page` with a nonzero code leaves the page unmodified (the boundary
  contract recognises no partial writes); `read_page` with a nonzero code
  leaves the destination buffer unmodified.
* Every operation additionally returns the list of primitive calls it
  issued, in order, so that call-counting properties are statable.
* Byte buffers are total functions `Nat → Nat`; only offsets below the page
  size are meaningful for a page buffer.
* The C++ constructor never initialises the member `char* pagebuffer`; its
  indeterminate initial value is taken as an explicit parameter of the
  constructor model (`none` models a zero/null initial value, `some g`
  models leftover garbage that compares nonnull).
-/

namespace AT45

def BD_ERROR_OK : Int := 0
def BD_ERROR_NO_MEMORY : Int := -4002
def BD_ERROR_NOT_INITIALIZED : Int := -4003

/-- `last_page = 0xffffffff`, the source's "no page cached" sentinel. -/
def SENTINEL : Nat := 4294967295

/-- The storage primitive (the AT45 chip driver): page contents by page
index and byte offset, and the result codes its two primitives return. -/
structure Flash where
  pages : Nat → Nat → Nat
  readErr : Nat → Int
  writeErr : Nat → Int

/-- One call issued to the storage primitive. -/
inductive PrimCall where
  | readPage : Nat → PrimCall
  | writePage : Nat → (Nat → Nat) → PrimCall

/-- Result code the flash returns for a given primitive call. -/
def respond (flash : Flash) : PrimCall → Int
  | PrimCall.readPage idx => flash.readErr idx
  | PrimCall.writePage idx _ => flash.writeErr idx

/-- Page indices of the `read_page` calls in a trace, in order. -/
def readPagesOf : List PrimCall → List Nat :=
  List.filterMap fun c => match c with
    | PrimCall.readPage idx => some idx
    | PrimCall.writePage _ _ => none

/-- Page indices of the `write_page` calls in a trace, in order. -/
def writePagesOf : List PrimCall → List Nat :=
  List.filterMap fun c => match c with
    | PrimCall.readPage _ => none
    | PrimCall.writePage idx _ => some idx

/-- Replay the hardware effect of one primitive call on the flash. -/
def applyCall (flash : Flash) : PrimCall → Flash
  | PrimCall.readPage _ => flash
  | PrimCall.writePage idx data =>
      if flash.writeErr idx = 0 then
        { flash with pages := Function.update flash.pages idx data }
      else flash

/-- Replay the hardware effect of a whole call trace. -/
def applyTrace (flash : Flash) (t : List PrimCall) : Flash :=
  t.foldl applyCall flash

/-- The mutable state of an `AT45BlockDevice` object: geometry fields,
the (possibly absent) page cache buffer, and the cached page index. -/
structure AT45State where
  pagesize : Nat
  totalsize : Nat
  pagebuffer : Option (Nat → Nat)
  last_page : Nat

/-- The constructor `AT45BlockDevice()`: fixes the geometry and sets
`last_page = 0xffffffff`.  The member `pagebuffer` is *not* assigned by the
source constructor; `indet` is its indeterminate initial value. -/
def mkAT45BlockDevice (pagesize pages : Nat) (indet : Option (Nat → Nat)) : AT45State :=
  { pagesize := pagesize
    totalsize := pagesize * pages
    pagebuffer := indet
    last_page := SENTINEL }

/-- `init()`: `pagebuffer = (char*)calloc(pagesize, 1)`.  `allocOk` is the
allocator's verdict; on failure `calloc` returns null and the function
returns `BD_ERROR_NO_MEMORY`. -/
def init (st : AT45State) (allocOk : Bool) : Int × AT45State :=
  if allocOk then
    (BD_ERROR_OK, { st with pagebuffer := some fun _ => 0 })
  else
    (BD_ERROR_NO_MEMORY, { st with pagebuffer := none })

/-- `memcpy(dst + dpos, src + spos, len)` on function-modelled buffers. -/
def memcpy (dst : Nat → Nat) (dpos : Nat) (src : Nat → Nat) (spos len : Nat) :
    Nat → Nat :=
  fun i => if dpos ≤ i ∧ i < dpos + len then src (spos + (i - dpos)) else dst i

/-- Result of the `program` page loop: result code, page cache contents,
cached page index, flash after the issued writes, and the call trace. -/
structure ProgLoopRes where
  code : Int
  pagebuffer : Nat → Nat
  last_page : Nat
  flash : Flash
  trace : List PrimCall

/-- The `while (bytes_left > 0)` loop of `AT45BlockDevice::program`.
`fuel` bounds the number of iterations; since every iteration consumes at
least one byte when `0 < ps`, `fuel = size` makes the model agree with the
source loop on every input with a positive page size. -/
def programLoop (ps : Nat) (buffer : Nat → Nat) (fuel : Nat) (pb : Nat → Nat)
    (lastPage : Nat) (flash : Flash) (bufpos addr bytesLeft : Nat) : ProgLoopRes :=
  match fuel with
  | 0 =>
      { code := BD_ERROR_OK, pagebuffer := pb, last_page := lastPage
        flash := flash, trace := [] }
  | Nat.succ fuel' =>
      if bytesLeft = 0 then
        { code := BD_ERROR_OK, pagebuffer := pb, last_page := lastPage
          flash := flash, trace := [] }
      else
        let page := addr / ps
        let offset := addr % ps
        let length := min (ps - offset) bytesLeft
        if lastPage ≠ page ∧ flash.readErr page ≠ 0 then
          { code := flash.readErr page, pagebuffer := pb, last_page := lastPage
            flash := flash, trace := [PrimCall.readPage page] }
        else
          let pbl := if lastPage ≠ page then flash.pages page else pb
          let lt := if lastPage ≠ page then [PrimCall.readPage page] else []
          let pb2 := memcpy pbl offset buffer bufpos length
          if flash.writeErr page ≠ 0 then
            { code := flash.writeErr page, pagebuffer := pb2, last_page := lastPage
              flash := flash, trace := lt ++ [PrimCall.writePage page pb2] }
          else
            let flash2 : Flash :=
              { flash with pages := Function.update flash.pages page pb2 }
            let r := programLoop ps buffer fuel' pb2 page flash2
              (bufpos + length) (addr + length) (bytesLeft - length)
            { code := r.code, pagebuffer := r.pagebuffer, last_page := r.last_page
              flash := r.flash, trace := lt ++ PrimCall.writePage page pb2 :: r.trace }

/-- Result of a top-level `program` or `erase` call. -/
structure OpRes where
  code : Int
  st : AT45State
  flash : Flash
  trace : List PrimCall

/-- `AT45BlockDevice::program(buffer, addr, size)`. -/
def program (st : AT45State) (flash : Flash) (buffer : Nat → Nat)
    (addr size : Nat) : OpRes :=
  match st.pagebuffer with
  | none => { code := BD_ERROR_NOT_INITIALIZED, st := st, flash := flash, trace := [] }
  | some pb =>
      let r := programLoop st.pagesize buffer size pb st.last_page flash 0 addr size
      { code := r.code
        st := { st with pagebuffer := some r.pagebuffer, last_page := r.last_page }
        flash := r.flash
        trace := r.trace }

/-- Result of the `read` page loop: result code, destination buffer after
the copies, page cache contents, cached page index, and the call trace.
`read` issues no `write_page` call, so the flash is returned unmodified by
the top-level wrapper. -/
structure ReadLoopRes where
  code : Int
  out : Nat → Nat
  pagebuffer : Nat → Nat
  last_page : Nat
  trace : List PrimCall

/-- The `while (bytes_left > 0)` loop of `AT45BlockDevice::read`. -/
def readLoop (ps : Nat) (flash : Flash) (fuel : Nat) (out pb : Nat → Nat)
    (lastPage : Nat) (bufpos addr bytesLeft : Nat) : ReadLoopRes :=
  match fuel with
  | 0 =>
      { code := BD_ERROR_OK, out := out, pagebuffer := pb, last_page := lastPage
        trace := [] }
  | Nat.succ fuel' =>
      if bytesLeft = 0 then
        { code := BD_ERROR_OK, out := out, pagebuffer := pb, last_page := lastPage
          trace := [] }
      else
        let page := addr / ps
        let offset := addr % ps
        let length := min (ps - offset) bytesLeft
        if lastPage ≠ page ∧ flash.readErr page ≠ 0 then
          { code := flash.readErr page, out := out, pagebuffer := pb
            last_page := lastPage, trace := [PrimCall.readPage page] }
        else
          let pbl := if lastPage ≠ page then flash.pages page else pb
          let lt := if lastPage ≠ page then [PrimCall.readPage page] else []
          let out2 := memcpy out bufpos pbl offset length
          let r := readLoop ps flash fuel' out2 pbl page
            (bufpos + length) (addr + length) (bytesLeft - length)
          { code := r.code, out := r.out, pagebuffer := r.pagebuffer
            last_page := r.last_page, trace := lt ++ r.trace }

/-- Result of a top-level `read` call. -/
structure ReadRes where
  code : Int
  out : Nat → Nat
  st : AT45State
  flash : Flash
  trace : List PrimCall

/-- `AT45BlockDevice::read(buffer, addr, size)`.  `out` is the caller's
destination buffer, whose prior contents survive wherever the call does
not write. -/
def read (st : AT45State) (flash : Flash) (out : Nat → Nat)
    (addr size : Nat) : ReadRes :=
  match st.pagebuffer with
  | none =>
      { code := BD_ERROR_NOT_INITIALIZED, out := out, st := st, flash := flash
        trace := [] }
  | some pb =>
      let r := readLoop st.pagesize flash size out pb st.last_page 0 addr size
      { code := r.code
        out := r.out
        st := { st with pagebuffer := some r.pagebuffer, last_page := r.last_page }
        flash := flash
        trace := r.trace }

/-- Result of the `erase` page loop. -/
structure EraseLoopRes where
  code : Int
  flash : Flash
  trace : List PrimCall

/-- The `for (ix = start_page; ix <= end_page; ix++)` loop of
`AT45BlockDevice::erase`; `n` is the iteration count `end_page + 1 - ix`. -/
def eraseLoop (pb : Nat → Nat) (n : Nat) (flash : Flash) (ix : Nat) : EraseLoopRes :=
  match n with
  | 0 => { code := BD_ERROR_OK, flash := flash, trace := [] }
  | Nat.succ n' =>
      if flash.writeErr ix ≠ 0 then
        { code := flash.writeErr ix, flash := flash
          trace := [PrimCall.writePage ix pb] }
      else
        let flash2 : Flash :=
          { flash with pages := Function.update flash.pages ix pb }
        let r := eraseLoop pb n' flash2 (ix + 1)
        { code := r.code, flash := r.flash
          trace := PrimCall.writePage ix pb :: r.trace }

/-- `AT45BlockDevice::erase(addr, size)`.  The cache buffer is memset to
`0xff` before the loop; the cache index is invalidated only after a fully
successful loop, and only when the previously cached page lies within
`[start_page, end_page]`. -/
def erase (st : AT45State) (flash : Flash) (addr size : Nat) : OpRes :=
  match st.pagebuffer with
  | none => { code := BD_ERROR_NOT_INITIALIZED, st := st, flash := flash, trace := [] }
  | some _ =>
      let startPage := addr / st.pagesize
      let endPage := (addr + size) / st.pagesize
      let pb : Nat → Nat := fun _ => 255
      let r := eraseLoop pb (endPage + 1 - startPage) flash startPage
      if r.code ≠ 0 then
        { code := r.code, st := { st with pagebuffer := some pb }
          flash := r.flash, trace := r.trace }
      else
        let lastPage2 :=
          if startPage ≤ st.last_page ∧ st.last_page ≤ endPage then SENTINEL
          else st.last_page
        { code := BD_ERROR_OK
          st := { st with pagebuffer := some pb, last_page := lastPage2 }
          flash := r.flash
          trace := r.trace }

/-- `get_read_size()`, `get_program_size()`, `get_erase_size()`. -/
def get_read_size (st : AT45State) : Nat := st.pagesize

def get_program_size (st : AT45State) : Nat := st.pagesize

def get_erase_size (st : AT45State) : Nat := st.pagesize

/-- `size()`. -/
def size (st : AT45State) : Nat := st.totalsize

/-! ### A concrete fault-free device used by the counterexample runs

Geometry: 2 bytes per page.  The flash starts all zeroes and never fails. -/

def demoFlash : Flash :=
  { pages := fun _ _ => 0, readErr := fun _ => 0, writeErr := fun _ => 0 }

/-- A freshly initialised 2-byte-page, 2-page device. -/
def demoSt : AT45State := (init (mkAT45BlockDevice 2 2 none) true).2

/-- Program bytes `1, 2` at addresses `0, 1` (all of page 0); afterwards
page 0 is cached. -/
def demoProg : OpRes := program demoSt demoFlash (fun i => i + 1) 0 2

/-- Then erase page 1 only (`addr = 2`, `size = 1`): the cached page 0 is
outside the erased range, so `last_page` stays 0, yet the shared buffer was
memset to `0xff`. -/
def demoErase : OpRes := erase demoProg.st demoProg.flash 2 1

/-- Then program the single byte `9` at address 0: page 0 is (spuriously)
cached, so the stale all-`0xff` buffer is used as the page's base contents. -/
def demoProg2 : OpRes := program demoErase.st demoErase.flash (fun _ => 9) 0 1

/-- A freshly *constructed* (never initialised) device whose indeterminate
`pagebuffer` member happens to hold a nonnull value. -/
def demoGarbage : AT45State := mkAT45BlockDevice 2 2 (some fun _ => 0)

/-- A freshly initialised 2-byte-page, 4-page device. -/
def demoSt4 : AT45State := (init (mkAT45BlockDevice 2 4 none) true).2

/-- What the source's `if (r != 0) return r;` discipline promises about one
operation: either the result code is 0 and every primitive call in the
trace succeeded, or the result code is nonzero, the trace ends at the first
failing call, every earlier call succeeded, and the failing call's code is
returned unchanged. -/
def ErrBehavior (flash : Flash) (t : List PrimCall) (code : Int) : Prop :=
  (code = 0 ∧ ∀ c ∈ t, respond flash c = 0) ∨
  (code ≠ 0 ∧ ∃ t0 c, t = t0 ++ [c] ∧ (∀ d ∈ t0, respond flash d = 0) ∧
    respond flash c = code)

/-- Selector for the two byte-range operations that share the page loop. -/
inductive OpKind where
  | readOp : OpKind
  | programOp : OpKind

/-- Uniform result view of `read` / `program`, for claims quantifying over
both operations. -/
structure GenRes where
  code : Int
  st : AT45State
  flash : Flash
  trace : List PrimCall

/-- Run `read` or `program` according to `k`. -/
def runOp (k : OpKind) (st : AT45State) (flash : Flash) (buffer : Nat → Nat)
    (addr size : Nat) : GenRes :=
  match k with
  | OpKind.readOp =>
      let r := read st flash buffer addr size
      { code := r.code, st := r.st, flash := r.flash, trace := r.trace }
  | OpKind.programOp =>
      let r := program st flash buffer addr size
      { code := r.code, st := r.st, flash := r.flash, trace := r.trace }

/-! ## Theorems -/

theorem respond_update (flash : Flash) (u : Nat → Nat → Nat) (c : PrimCall) :
    respond { flash with pages := u } c = respond flash c := by
  cases c <;> rfl

theorem errBehavior_of_update (flash : Flash) (u : Nat → Nat → Nat)
    (t : List PrimCall) (code : Int) :
    ErrBehavior { flash with pages := u } t code → ErrBehavior flash t code := by
  unfold ErrBehavior
  simp only [respond_update]
  exact id

/-- **C1** (code bug).  The cache-validity invariant does *not* survive a
successful `erase` whose range misses the cached page: after programming
page 0 (bytes `1, 2`) and then erasing only page 1, the call succeeded and
`last_page` still names page 0, but the shared buffer was memset to `0xff`
(`pagebuffer[1] = 255`) while the hardware still holds byte `2` at page 0,
offset 1; a subsequent read of address 0 then returns the stale `255`
instead of the on-hardware byte `1`. -/
theorem c1_cache_invariant_broken_by_erase :
    demoErase.code = BD_ERROR_OK ∧
    demoErase.st.last_page = 0 ∧
    (demoErase.st.pagebuffer.getD fun _ => 0) 1 = 255 ∧
    demoErase.flash.pages 0 1 = 2 ∧
    demoErase.flash.pages 0 0 = 1 ∧
    (read demoErase.st demoErase.flash (fun _ => 7) 0 2).out 0 = 255 :=
  ⟨rfl, rfl, rfl, rfl, rfl, rfl⟩

/-- **C3** (code bug).  Read-modify-write isolation fails from a reachable
state: after `program([1,2], 0, 2)` and `erase(2, 1)` (which leaves page 0
spuriously cached with an all-`0xff` buffer), the successful call
`program([9], 0, 1)` clobbers the untouched byte at address 1 — the
hardware held `2` there before the call and `255` after it. -/
theorem c3_rmw_isolation_broken_by_stale_cache :
    demoProg2.code = BD_ERROR_OK ∧
    demoErase.flash.pages 0 1 = 2 ∧
    demoProg2.flash.pages 0 1 = 255 :=
  ⟨rfl, rfl, rfl⟩

/-- **C4** (counterexample).  With page size 2, `erase(addr := 1, size := 2)`
has `size` an exact multiple of the page size, yet no page beyond the naive
byte-range end is erased: the naive last overlapped page is
`(1 + 2 - 1) / 2 = 1`, the pages written are exactly `[0, 1]`, and page 2
keeps its prior contents. -/
theorem c4_no_extra_page_for_unaligned_addr :
    (1 + 2 - 1) / 2 = 1 ∧
    writePagesOf (erase demoSt4 demoFlash 1 2).trace = [0, 1] ∧
    (erase demoSt4 demoFlash 1 2).flash.pages 2 0 = 0 :=
  ⟨rfl, rfl, rfl⟩

/-- **C5** (code bug).  The source constructor never assigns the member
`pagebuffer`, so before the first `init()` the `!pagebuffer` guard tests an
indeterminate pointer.  For a fresh device whose indeterminate member holds
a nonnull value, `read` does not return `BD_ERROR_NOT_INITIALIZED` — it
proceeds and issues a `read_page` call to the storage primitive. -/
theorem c5_uninitialized_guard_unreliable :
    (read demoGarbage demoFlash (fun _ => 0) 0 1).code = BD_ERROR_OK ∧
    BD_ERROR_OK ≠ BD_ERROR_NOT_INITIALIZED ∧
    (read demoGarbage demoFlash (fun _ => 0) 0 1).trace = [PrimCall.readPage 0] :=
  ⟨rfl, by decide, rfl⟩

theorem errBehavior_fail (flash : Flash) (pre : List PrimCall) (c : PrimCall)
    (hpre : ∀ d ∈ pre, respond flash d = 0) (hc : respond flash c ≠ 0) :
    ErrBehavior flash (pre ++ [c]) (respond flash c) :=
  Or.inr ⟨hc, pre, c, rfl, hpre, rfl⟩

theorem errBehavior_clean_append (flash : Flash) (pre t : List PrimCall) (code : Int)
    (hpre : ∀ d ∈ pre, respond flash d = 0) (h : ErrBehavior flash t code) :
    ErrBehavior flash (pre ++ t) code := by
  rcases h with ⟨hc, hall⟩ | ⟨hc, t0, c, ht, hclean, hresp⟩
  · refine Or.inl ⟨hc, ?_⟩
    intro d hd
    rcases List.mem_append.mp hd with hd | hd
    · exact hpre d hd
    · exact hall d hd
  · refine Or.inr ⟨hc, pre ++ t0, c, by rw [ht, List.append_assoc], ?_, hresp⟩
    intro d hd
    rcases List.mem_append.mp hd with hd | hd
    · exact hpre d hd
    · exact hclean d hd

theorem eraseLoop_err (pb : Nat → Nat) (n : Nat) (flash : Flash) (ix : Nat) :
    ErrBehavior flash (eraseLoop pb n flash ix).trace (eraseLoop pb n flash ix).code := by
  induction n generalizing flash ix with
  | zero =>
      exact Or.inl ⟨rfl, by simp [eraseLoop]⟩
  | succ n ih =>
      rw [eraseLoop]
      by_cases h : flash.writeErr ix ≠ 0
      · rw [if_pos h]
        exact errBehavior_fail flash [] (PrimCall.writePage ix pb) (by simp) h
      · rw [if_neg h]
        push_neg at h
        have hih := errBehavior_of_update flash (Function.update flash.pages ix pb) _ _
          (ih { flash with pages := Function.update flash.pages ix pb } (ix + 1))
        have h2 := errBehavior_clean_append flash [PrimCall.writePage ix pb] _ _
          (by intro d hd; simp only [List.mem_singleton] at hd; subst hd; exact h) hih
        exact h2

theorem programLoop_err (ps : Nat) (buffer : Nat → Nat) (fuel : Nat) (pb : Nat → Nat)
    (lastPage : Nat) (flash : Flash) (bufpos addr bytesLeft : Nat) :
    ErrBehavior flash
      (programLoop ps buffer fuel pb lastPage flash bufpos addr bytesLeft).trace
      (programLoop ps buffer fuel pb lastPage flash bufpos addr bytesLeft).code := by
  induction fuel generalizing pb lastPage flash bufpos addr bytesLeft with
  | zero => exact Or.inl ⟨rfl, by simp [programLoop]⟩
  | succ fuel ih =>
      rw [programLoop]
      by_cases h0 : bytesLeft = 0
      · rw [if_pos h0]; exact Or.inl ⟨rfl, by simp⟩
      · rw [if_neg h0]
        by_cases hload : lastPage ≠ addr / ps ∧ flash.readErr (addr / ps) ≠ 0
        · rw [if_pos hload]
          exact errBehavior_fail flash [] (PrimCall.readPage (addr / ps)) (by simp) hload.2
        · rw [if_neg hload]
          have hlt : ∀ d ∈ (if lastPage ≠ addr / ps
              then [PrimCall.readPage (addr / ps)] else []), respond flash d = 0 := by
            by_cases hcc : lastPage ≠ addr / ps
            · rw [if_pos hcc]
              intro d hd
              simp only [List.mem_singleton] at hd
              subst hd
              show flash.readErr (addr / ps) = 0
              by_contra hne
              exact hload ⟨hcc, hne⟩
            · rw [if_neg hcc]
              intro d hd
              simp at hd
          by_cases hw : flash.writeErr (addr / ps) ≠ 0
          · rw [if_pos hw]
            exact errBehavior_fail flash _ _ hlt hw
          · rw [if_neg hw]
            push_neg at hw
            have hih0 := ih (memcpy (if lastPage ≠ addr / ps then flash.pages (addr / ps) else pb) (addr % ps) buffer bufpos (min (ps - addr % ps) bytesLeft)) (addr / ps) ({ flash with pages := Function.update flash.pages (addr / ps) (memcpy (if lastPage ≠ addr / ps then flash.pages (addr / ps) else pb) (addr % ps) buffer bufpos (min (ps - addr % ps) bytesLeft)) }) (bufpos + min (ps - addr % ps) bytesLeft) (addr + min (ps - addr % ps) bytesLeft) (bytesLeft - min (ps - addr % ps) bytesLeft)
            have hih := errBehavior_of_update flash _ _ _ hih0
            have hw2 : ∀ d ∈ (if lastPage ≠ addr / ps
                then [PrimCall.readPage (addr / ps)] else []) ++
                  [PrimCall.writePage (addr / ps)
                    (memcpy (if lastPage ≠ addr / ps then flash.pages (addr / ps) else pb)
                      (addr % ps) buffer bufpos (min (ps - addr % ps) bytesLeft))],
                respond flash d = 0 := by
              intro d hd
              rcases List.mem_append.mp hd with hd | hd
              · exact hlt d hd
              · simp only [List.mem_singleton] at hd
                subst hd
                exact hw
            have h2 := errBehavior_clean_append flash _ _ _ hw2 hih
            rw [List.append_assoc] at h2
            exact h2

theorem readLoop_err (ps : Nat) (flash : Flash) (fuel : Nat) (out pb : Nat → Nat)
    (lastPage : Nat) (bufpos addr bytesLeft : Nat) :
    ErrBehavior flash
      (readLoop ps flash fuel out pb lastPage bufpos addr bytesLeft).trace
      (readLoop ps flash fuel out pb lastPage bufpos addr bytesLeft).code := by
  induction fuel generalizing out pb lastPage bufpos addr bytesLeft with
  | zero => exact Or.inl ⟨rfl, by simp [readLoop]⟩
  | succ fuel ih =>
      rw [readLoop]
      by_cases h0 : bytesLeft = 0
      · rw [if_pos h0]; exact Or.inl ⟨rfl, by simp⟩
      · rw [if_neg h0]
        by_cases hload : lastPage ≠ addr / ps ∧ flash.readErr (addr / ps) ≠ 0
        · rw [if_pos hload]
          exact errBehavior_fail flash [] (PrimCall.readPage (addr / ps)) (by simp) hload.2
        · rw [if_neg hload]
          have hlt : ∀ d ∈ (if lastPage ≠ addr / ps
              then [PrimCall.readPage (addr / ps)] else []), respond flash d = 0 := by
            by_cases hcc : lastPage ≠ addr / ps
            · rw [if_pos hcc]
              intro d hd
              simp only [List.mem_singleton] at hd
              subst hd
              show flash.readErr (addr / ps) = 0
              by_contra hne
              exact hload ⟨hcc, hne⟩
            · rw [if_neg hcc]
              intro d hd
              simp at hd
          have hih := ih
            (memcpy out bufpos
              (if lastPage ≠ addr / ps then flash.pages (addr / ps) else pb)
              (addr % ps) (min (ps - addr % ps) bytesLeft))
            (if lastPage ≠ addr / ps then flash.pages (addr / ps) else pb)
            (addr / ps)
            (bufpos + min (ps - addr % ps) bytesLeft)
            (addr + min (ps - addr % ps) bytesLeft)
            (bytesLeft - min (ps - addr % ps) bytesLeft)
          exact errBehavior_clean_append flash _ _ _ hlt hih

theorem writePagesOf_append (a b : List PrimCall) :
    writePagesOf (a ++ b) = writePagesOf a ++ writePagesOf b :=
  List.filterMap_append _ _ _

theorem readPagesOf_append (a b : List PrimCall) :
    readPagesOf (a ++ b) = readPagesOf a ++ readPagesOf b :=
  List.filterMap_append _ _ _

theorem readLoop_trace_pure (ps : Nat) (flash : Flash) (fuel : Nat) (out pb : Nat → Nat)
    (lastPage : Nat) (bufpos addr bytesLeft : Nat) :
    writePagesOf (readLoop ps flash fuel out pb lastPage bufpos addr bytesLeft).trace = [] := by
  induction fuel generalizing out pb lastPage bufpos addr bytesLeft with
  | zero => simp [readLoop, writePagesOf]
  | succ fuel ih =>
      rw [readLoop]
      by_cases h0 : bytesLeft = 0
      · rw [if_pos h0]; simp [writePagesOf]
      · rw [if_neg h0]
        by_cases hload : lastPage ≠ addr / ps ∧ flash.readErr (addr / ps) ≠ 0
        · rw [if_pos hload]; simp [writePagesOf]
        · rw [if_neg hload]
          show writePagesOf ((if lastPage ≠ addr / ps
              then [PrimCall.readPage (addr / ps)] else []) ++ _) = []
          rw [writePagesOf_append]
          rw [ih]
          by_cases hcc : lastPage ≠ addr / ps
          · rw [if_pos hcc]; rfl
          · rw [if_neg hcc]; rfl

theorem applyTrace_of_no_writes (flash : Flash) (t : List PrimCall)
    (h : writePagesOf t = []) : applyTrace flash t = flash := by
  induction t generalizing flash with
  | nil => rfl
  | cons c t ih =>
      cases c with
      | readPage i => exact ih flash h
      | writePage i d => simp [writePagesOf] at h

/-- **C10** (confirmed).  `read` never issues a `write_page` call to the
storage primitive; consequently the on-hardware contents of every page are
identical before and after the call — also on the uninitialised and
hardware-error paths. -/
theorem c10_read_leaves_flash_unchanged (st : AT45State) (flash : Flash)
    (out : Nat → Nat) (addr sz : Nat) :
    writePagesOf (read st flash out addr sz).trace = [] ∧
    (read st flash out addr sz).flash = flash ∧
    applyTrace flash (read st flash out addr sz).trace = flash := by
  have h1 : writePagesOf (read st flash out addr sz).trace = [] := by
    cases hb : st.pagebuffer with
    | none => simp [read, hb, writePagesOf]
    | some pb =>
        simp only [read, hb]
        exact readLoop_trace_pure _ _ _ _ _ _ _ _ _
  refine ⟨h1, ?_, applyTrace_of_no_writes flash _ h1⟩
  cases hb : st.pagebuffer with
  | none => simp [read, hb]
  | some pb => simp [read, hb]

/-- **C7** (confirmed).  On an initialised translator, every `read`,
`program` and `erase` call passes primitive error codes through unchanged:
if the result code is nonzero, the trace ends at the first failing
primitive call, all earlier calls succeeded, and the failing call's code is
the returned code; if the result code is zero, every issued call
succeeded. -/
theorem c7_error_propagation (st : AT45State) (flash : Flash) (pb buf out : Nat → Nat)
    (addr sz : Nat) (hbuf : st.pagebuffer = some pb) :
    ErrBehavior flash (program st flash buf addr sz).trace (program st flash buf addr sz).code ∧
    ErrBehavior flash (read st flash out addr sz).trace (read st flash out addr sz).code ∧
    ErrBehavior flash (erase st flash addr sz).trace (erase st flash addr sz).code := by
  refine ⟨?_, ?_, ?_⟩
  · simp only [program, hbuf]
    exact programLoop_err _ _ _ _ _ _ _ _ _
  · simp only [read, hbuf]
    exact readLoop_err _ _ _ _ _ _ _ _ _
  · simp only [erase, hbuf]
    have he := eraseLoop_err (fun _ => 255)
      ((addr + sz) / st.pagesize + 1 - addr / st.pagesize) flash (addr / st.pagesize)
    by_cases hc : (eraseLoop (fun _ => 255)
        ((addr + sz) / st.pagesize + 1 - addr / st.pagesize) flash
        (addr / st.pagesize)).code ≠ 0
    · rw [if_pos hc]
      exact he
    · rw [if_neg hc]
      push_neg at hc
      rw [hc] at he
      exact he

theorem writePagesOf_map_write (pb : Nat → Nat) (l : List Nat) :
    writePagesOf (l.map fun i => PrimCall.writePage i pb) = l := by
  induction l with
  | nil => rfl
  | cons a l ih =>
      show writePagesOf (PrimCall.writePage a pb :: l.map fun i => PrimCall.writePage i pb) = a :: l
      rw [writePagesOf, List.filterMap_cons]
      show a :: writePagesOf (l.map fun i => PrimCall.writePage i pb) = a :: l
      rw [ih]

theorem eraseLoop_ok (pb : Nat → Nat) (n : Nat) (flash : Flash) (ix : Nat)
    (hw : ∀ p, ix ≤ p → p < ix + n → flash.writeErr p = 0) :
    (eraseLoop pb n flash ix).code = BD_ERROR_OK ∧
    (eraseLoop pb n flash ix).flash.readErr = flash.readErr ∧
    (eraseLoop pb n flash ix).flash.writeErr = flash.writeErr ∧
    (∀ p, (eraseLoop pb n flash ix).flash.pages p =
      if ix ≤ p ∧ p < ix + n then pb else flash.pages p) ∧
    (eraseLoop pb n flash ix).trace =
      (List.range' ix n).map fun i => PrimCall.writePage i pb := by
  induction n generalizing flash ix with
  | zero =>
      refine ⟨rfl, rfl, rfl, ?_, rfl⟩
      intro p
      show flash.pages p = _
      rw [if_neg (by omega)]
  | succ n ih =>
      have hwix : flash.writeErr ix = 0 := hw ix (Nat.le_refl ix) (by omega)
      simp only [eraseLoop]
      rw [if_neg (by simp [hwix])]
      obtain ⟨hc, hre, hwe, hpg, htr⟩ := ih
        ({ flash with pages := Function.update flash.pages ix pb }) (ix + 1)
        (by intro p h1 h2; exact hw p (by omega) (by omega))
      refine ⟨hc, hre, hwe, ?_, ?_⟩
      · intro p
        rw [hpg p]
        by_cases h1 : ix + 1 ≤ p ∧ p < ix + 1 + n
        · rw [if_pos h1, if_pos (by omega)]
        · rw [if_neg h1]
          by_cases h2 : p = ix
          · subst h2
            show Function.update flash.pages p pb p = _
            rw [Function.update_same, if_pos (by omega)]
          · show Function.update flash.pages ix pb p = _
            rw [Function.update_noteq h2, if_neg (by omega)]
      · rw [htr]
        rfl

/-- **C4** (corrected).  On an initialised translator with a fault-free
primitive, a successful `erase(addr, size)` writes the all-`0xff` buffer to
exactly the pages `addr / page_size .. (addr + size) / page_size`
(inclusive), in ascending order, so every byte of every page in that range
becomes `0xff` on the hardware.  The "one extra trailing page" effect
occurs exactly when `addr + size` is a multiple of the page size (with
`size > 0`): then the inclusive end page is one beyond the naive last
overlapped page `(addr + size - 1) / page_size`.  (For an unaligned `addr`
with `size` a multiple of the page size, no extra page is erased.) -/
theorem c4_erase_extent (st : AT45State) (flash : Flash) (pb : Nat → Nat)
    (addr sz : Nat) (hbuf : st.pagebuffer = some pb) (hps : 0 < st.pagesize)
    (hw : ∀ p, flash.writeErr p = 0) :
    (erase st flash addr sz).code = BD_ERROR_OK ∧
    (∀ p, addr / st.pagesize ≤ p → p ≤ (addr + sz) / st.pagesize →
      ∀ o, (erase st flash addr sz).flash.pages p o = 255) ∧
    writePagesOf (erase st flash addr sz).trace =
      List.range' (addr / st.pagesize)
        ((addr + sz) / st.pagesize + 1 - addr / st.pagesize) ∧
    (0 < sz → (addr + sz) % st.pagesize = 0 →
      (addr + sz) / st.pagesize = (addr + sz - 1) / st.pagesize + 1) := by
  obtain ⟨hc, hre, hwe, hpg, htr⟩ := eraseLoop_ok (fun _ => 255)
    ((addr + sz) / st.pagesize + 1 - addr / st.pagesize) flash (addr / st.pagesize)
    (fun p _ _ => hw p)
  have hdiv : addr / st.pagesize ≤ (addr + sz) / st.pagesize :=
    Nat.div_le_div_right (Nat.le_add_right _ _)
  simp only [erase, hbuf]
  rw [if_neg (by rw [hc]; simp [BD_ERROR_OK])]
  refine ⟨rfl, ?_, ?_, ?_⟩
  · intro p h1 h2 o
    rw [hpg p, if_pos (by omega)]
  · rw [htr, writePagesOf_map_write]
  · intro hsz hmod
    obtain ⟨k, hk⟩ := (Nat.dvd_of_mod_eq_zero hmod)
    have hk1 : 1 ≤ k := by
      rcases Nat.eq_zero_or_pos k with h | h
      · subst h; omega
      · exact h
    have e1 : (addr + sz) / st.pagesize = k := by
      rw [hk, Nat.mul_div_cancel_left _ hps]
    have e2 : (addr + sz - 1) / st.pagesize = k - 1 := by
      have hk2 : addr + sz - 1 = (st.pagesize - 1) + st.pagesize * (k - 1) := by
        have h3 : st.pagesize * k = st.pagesize * (k - 1) + st.pagesize := by
          cases k with
          | zero => omega
          | succ m =>
              simp only [Nat.succ_sub_one]
              rw [Nat.mul_succ]
        omega
      rw [hk2, Nat.add_mul_div_left _ _ hps, Nat.div_eq_of_lt (by omega)]
      omega
    omega

/-- **C9** (confirmed).  On an initialised translator, `read` and `program`
with `size = 0` return `BD_ERROR_OK`, issue no primitive calls, and leave
the device state (cache buffer and cached index), destination buffer and
flash unchanged; `erase` with `size = 0` is not a no-op: it still issues
exactly one `write_page` of the all-`0xff` buffer for the page containing
`addr`, which becomes all `0xff` on the hardware. -/
theorem c9_zero_size (st : AT45State) (flash : Flash) (pb buf dest : Nat → Nat)
    (addr : Nat) (hbuf : st.pagebuffer = some pb)
    (hw : flash.writeErr (addr / st.pagesize) = 0) :
    (read st flash dest addr 0).code = BD_ERROR_OK ∧
    (read st flash dest addr 0).st = st ∧
    (read st flash dest addr 0).trace = [] ∧
    (read st flash dest addr 0).out = dest ∧
    (read st flash dest addr 0).flash = flash ∧
    (program st flash buf addr 0).code = BD_ERROR_OK ∧
    (program st flash buf addr 0).st = st ∧
    (program st flash buf addr 0).trace = [] ∧
    (program st flash buf addr 0).flash = flash ∧
    (erase st flash addr 0).code = BD_ERROR_OK ∧
    (erase st flash addr 0).trace =
      [PrimCall.writePage (addr / st.pagesize) fun _ => 255] ∧
    (∀ o, (erase st flash addr 0).flash.pages (addr / st.pagesize) o = 255) := by
  obtain ⟨hc, hre, hwe, hpg, htr⟩ := eraseLoop_ok (fun _ => 255) 1 flash
    (addr / st.pagesize)
    (by intro p h1 h2; have h3 : p = addr / st.pagesize := Nat.le_antisymm (by omega) h1; rw [h3]; exact hw)
  have hOne : (addr + 0) / st.pagesize + 1 - addr / st.pagesize = 1 := by
    simp
  have herase : (erase st flash addr 0).code = BD_ERROR_OK ∧
      (erase st flash addr 0).trace =
        [PrimCall.writePage (addr / st.pagesize) fun _ => 255] ∧
      (∀ o, (erase st flash addr 0).flash.pages (addr / st.pagesize) o = 255) := by
    simp only [erase, hbuf, hOne]
    rw [if_neg (by rw [hc]; simp [BD_ERROR_OK])]
    refine ⟨rfl, ?_, ?_⟩
    · rw [htr]
      rfl
    · intro o
      rw [hpg, if_pos (by omega)]
  obtain ⟨ps0, ts0, pb0, lp0⟩ := st
  simp only at hbuf
  subst hbuf
  exact ⟨rfl, rfl, rfl, rfl, rfl, rfl, rfl, rfl, rfl, herase.1, herase.2.1, herase.2.2⟩

theorem c4_erase_extent_witness :
    (erase demoSt4 demoFlash 0 2).code = BD_ERROR_OK ∧
    writePagesOf (erase demoSt4 demoFlash 0 2).trace = [0, 1] := by
  have h := c4_erase_extent demoSt4 demoFlash (fun _ => 0) 0 2 rfl (by decide) fun p => rfl
  exact ⟨h.1, h.2.2.1.trans (by decide)⟩

theorem c7_error_propagation_witness :
    ErrBehavior demoFlash (program demoSt4 demoFlash (fun _ => 1) 0 1).trace
      (program demoSt4 demoFlash (fun _ => 1) 0 1).code ∧
    ErrBehavior demoFlash (read demoSt4 demoFlash (fun _ => 7) 0 1).trace
      (read demoSt4 demoFlash (fun _ => 7) 0 1).code ∧
    ErrBehavior demoFlash (erase demoSt4 demoFlash 0 1).trace
      (erase demoSt4 demoFlash 0 1).code :=
  c7_error_propagation demoSt4 demoFlash (fun _ => 0) (fun _ => 1) (fun _ => 7) 0 1 rfl

theorem c9_zero_size_witness :
    (read demoSt4 demoFlash (fun _ => 7) 5 0).code = BD_ERROR_OK ∧
    (read demoSt4 demoFlash (fun _ => 7) 5 0).trace = [] ∧
    (erase demoSt4 demoFlash 5 0).trace =
      [PrimCall.writePage (5 / demoSt4.pagesize) fun _ => 255] := by
  obtain ⟨h1, _, h3, _, _, _, _, _, _, _, h11, _⟩ :=
    c9_zero_size demoSt4 demoFlash (fun _ => 0) (fun _ => 3) (fun _ => 7) 5 rfl rfl
  exact ⟨h1, h3, h11⟩

theorem page_eq_of_between (ps p o page : Nat) (ho : o < ps)
    (h1 : ps * page ≤ ps * p + o) (h2 : ps * p + o < ps * (page + 1)) : p = page := by
  have hlt1 : p < page + 1 := Nat.lt_of_mul_lt_mul_left (Nat.lt_of_le_of_lt (Nat.le_add_right _ _) h2)
  have hlt2 : page < p + 1 := by
    have : ps * page < ps * (p + 1) := by
      calc ps * page ≤ ps * p + o := h1
        _ < ps * p + ps := by omega
        _ = ps * (p + 1) := by rw [Nat.mul_succ]
    exact Nat.lt_of_mul_lt_mul_left this
  omega

theorem div_eq_page (ps page r : Nat) (hr : r < ps) : (ps * page + r) / ps = page := by
  rw [Nat.mul_add_div (by omega), Nat.div_eq_of_lt hr, Nat.add_zero]

theorem mod_eq_off (ps page r : Nat) (hr : r < ps) : (ps * page + r) % ps = r := by
  rw [Nat.mul_add_mod, Nat.mod_eq_of_lt hr]

theorem programLoop_ok (ps : Nat) (buffer : Nat → Nat) (fuel : Nat) (pb : Nat → Nat)
    (lastPage : Nat) (flash : Flash) (bufpos addr bytesLeft : Nat)
    (hps : 0 < ps) (hfuel : bytesLeft ≤ fuel)
    (hr : ∀ p, flash.readErr p = 0) (hw : ∀ p, flash.writeErr p = 0) :
    (programLoop ps buffer fuel pb lastPage flash bufpos addr bytesLeft).code = BD_ERROR_OK ∧
    (programLoop ps buffer fuel pb lastPage flash bufpos addr bytesLeft).flash.readErr = flash.readErr ∧
    (programLoop ps buffer fuel pb lastPage flash bufpos addr bytesLeft).flash.writeErr = flash.writeErr ∧
    (∀ p o, o < ps → addr ≤ ps * p + o → ps * p + o < addr + bytesLeft →
      (programLoop ps buffer fuel pb lastPage flash bufpos addr bytesLeft).flash.pages p o =
        buffer (bufpos + (ps * p + o - addr))) ∧
    ((lastPage = addr / ps → pb = flash.pages (addr / ps)) →
      ∀ p o, o < ps → (ps * p + o < addr ∨ addr + bytesLeft ≤ ps * p + o) →
      (programLoop ps buffer fuel pb lastPage flash bufpos addr bytesLeft).flash.pages p o =
        flash.pages p o) ∧
    (0 < bytesLeft →
      (programLoop ps buffer fuel pb lastPage flash bufpos addr bytesLeft).last_page =
        (addr + bytesLeft - 1) / ps ∧
      (programLoop ps buffer fuel pb lastPage flash bufpos addr bytesLeft).pagebuffer =
        (programLoop ps buffer fuel pb lastPage flash bufpos addr bytesLeft).flash.pages
          ((addr + bytesLeft - 1) / ps)) ∧
    (bytesLeft = 0 →
      programLoop ps buffer fuel pb lastPage flash bufpos addr bytesLeft =
        { code := BD_ERROR_OK, pagebuffer := pb, last_page := lastPage
          flash := flash, trace := [] }) ∧
    writePagesOf (programLoop ps buffer fuel pb lastPage flash bufpos addr bytesLeft).trace =
      List.range' (addr / ps)
        (if bytesLeft = 0 then 0 else (addr + bytesLeft - 1) / ps + 1 - addr / ps) ∧
    readPagesOf (programLoop ps buffer fuel pb lastPage flash bufpos addr bytesLeft).trace =
      (if lastPage = addr / ps then
        List.range' (addr / ps + 1)
          ((if bytesLeft = 0 then 0 else (addr + bytesLeft - 1) / ps + 1 - addr / ps) - 1)
       else
        List.range' (addr / ps)
          (if bytesLeft = 0 then 0 else (addr + bytesLeft - 1) / ps + 1 - addr / ps)) := by
  induction fuel generalizing pb lastPage flash bufpos addr bytesLeft with
  | zero =>
      have h0 : bytesLeft = 0 := Nat.le_zero.mp hfuel
      subst h0
      refine ⟨rfl, rfl, rfl, ?_, ?_, ?_, ?_, ?_, ?_⟩
      · intro p o ho hlo hhi; omega
      · intro _ p o ho hout; rfl
      · intro h; omega
      · intro _; rfl
      · simp [programLoop, writePagesOf]
      · by_cases hcache : lastPage = addr / ps
      
        · simp [programLoop, readPagesOf, hcache]
        · simp [programLoop, readPagesOf, hcache]
  | succ fuel ih =>
      by_cases h0 : bytesLeft = 0
      · subst h0
        refine ⟨rfl, rfl, rfl, ?_, ?_, ?_, ?_, ?_, ?_⟩
        · intro p o ho hlo hhi; omega
        · intro _ p o ho hout; rfl
        · intro h; omega
        · intro _; rfl
        · simp [programLoop, writePagesOf]
        · by_cases hcache : lastPage = addr / ps
          · simp [programLoop, readPagesOf, hcache]
          · simp [programLoop, readPagesOf, hcache]
      · have hoff : addr % ps < ps := Nat.mod_lt _ hps
        have haddr : ps * (addr / ps) + addr % ps = addr := Nat.div_add_mod addr ps
        have hmulsucc : ps * (addr / ps + 1) = ps * (addr / ps) + ps := Nat.mul_succ ps _
        simp only [programLoop]
        rw [if_neg h0]
        rw [if_neg (show ¬(lastPage ≠ addr / ps ∧ flash.readErr (addr / ps) ≠ 0) by
          simp [hr (addr / ps)])]
        rw [if_neg (show ¬(flash.writeErr (addr / ps) ≠ 0) by simp [hw (addr / ps)])]
        set L := min (ps - addr % ps) bytesLeft with hLdef
        have hlen1 : 1 ≤ L := by omega
        have hlenle : L ≤ bytesLeft := Nat.min_le_right _ _
        have hlenps : L ≤ ps - addr % ps := Nat.min_le_left _ _
        set PB2 := memcpy (if lastPage ≠ addr / ps then flash.pages (addr / ps) else pb)
          (addr % ps) buffer bufpos L with hPB2def
        set FL2 : Flash :=
          { flash with pages := Function.update flash.pages (addr / ps) PB2 } with hFL2def
        have hrecache : addr / ps = (addr + L) / ps → PB2 = FL2.pages ((addr + L) / ps) := by
          intro h
          rw [← h, hFL2def]
          exact (Function.update_same (addr / ps) PB2 flash.pages).symm
        obtain ⟨k1, k2, k3, k4, k5, k6, k7, k8, k9⟩ :=
          ih PB2 (addr / ps) FL2 (bufpos + L) (addr + L) (bytesLeft - L)
            (by omega)
            (by intro p; rw [hFL2def]; exact hr p)
            (by intro p; rw [hFL2def]; exact hw p)
        have hfl2at : ∀ o, FL2.pages (addr / ps) o = PB2 o := by
          intro o
          rw [hFL2def]
          show Function.update flash.pages (addr / ps) PB2 (addr / ps) o = PB2 o
          rw [Function.update_same (addr / ps) PB2 flash.pages]
        have hfl2ne : ∀ p o, p ≠ addr / ps → FL2.pages p o = flash.pages p o := by
          intro p o hp
          rw [hFL2def]
          show Function.update flash.pages (addr / ps) PB2 p o = flash.pages p o
          rw [Function.update_noteq hp PB2 flash.pages]
        refine ⟨k1, k2.trans (by rw [hFL2def]), k3.trans (by rw [hFL2def]), ?_, ?_, ?_, ?_, ?_, ?_⟩
        · -- in-range bytes equal the source buffer
          intro p o ho hlo hhi
          by_cases hfirst : ps * p + o < addr + L
          · have hpeq : p = addr / ps := by
              refine page_eq_of_between ps p o (addr / ps) ho (by omega) (by omega)
            subst hpeq
            have h5 := k5 hrecache (addr / ps) o ho (Or.inl hfirst)
            rw [h5, hfl2at o, hPB2def]
            show (if addr % ps ≤ o ∧ o < addr % ps + L
              then buffer (bufpos + (o - addr % ps))
              else (if lastPage ≠ addr / ps then flash.pages (addr / ps) else pb) o) = _
            rw [if_pos (by omega)]
            congr 1
            omega
          · have h4 := k4 p o ho (by omega) (by omega)
            rw [h4]
            congr 1
            omega
        · -- frame: bytes outside the range are unchanged
          intro hc0 p o ho hout
          have houtrec : ps * p + o < addr + L ∨ addr + L + (bytesLeft - L) ≤ ps * p + o := by
            rcases hout with h | h
            · exact Or.inl (by omega)
            · exact Or.inr (by omega)
          by_cases hpeq : p = addr / ps
          · subst hpeq
            have h5 := k5 hrecache (addr / ps) o ho houtrec
            rw [h5, hfl2at o, hPB2def]
            show (if addr % ps ≤ o ∧ o < addr % ps + L
              then buffer (bufpos + (o - addr % ps))
              else (if lastPage ≠ addr / ps then flash.pages (addr / ps) else pb) o) = _
            rw [if_neg (by omega)]
            by_cases hlp : lastPage = addr / ps
            · rw [if_neg (not_not_intro hlp), hc0 hlp]
            · rw [if_pos hlp]
          · have h5 := k5 hrecache p o ho houtrec
            rw [h5, hfl2ne p o hpeq]
        · -- final cached page and write-through buffer
          intro hbl
          by_cases hend : bytesLeft - L = 0
          · have hbeq : bytesLeft = L := by omega
            have hplast : (addr + bytesLeft - 1) / ps = addr / ps := by
              have he : addr + bytesLeft - 1 = ps * (addr / ps) + (addr % ps + bytesLeft - 1) := by
                omega
              rw [he, div_eq_page ps _ _ (by omega)]
            rw [hplast]
            constructor
            · show (programLoop ps buffer fuel PB2 (addr / ps) FL2
                (bufpos + L) (addr + L) (bytesLeft - L)).last_page = addr / ps
              rw [k7 hend]
            · show (programLoop ps buffer fuel PB2 (addr / ps) FL2
                (bufpos + L) (addr + L) (bytesLeft - L)).pagebuffer =
                (programLoop ps buffer fuel PB2 (addr / ps) FL2
                  (bufpos + L) (addr + L) (bytesLeft - L)).flash.pages (addr / ps)
              rw [k7 hend]
              exact funext fun o => (hfl2at o).symm
          · have hLps : L = ps - addr % ps := by omega
            have haddr2 : addr + L = ps * (addr / ps + 1) := by omega
            have heq : addr + L + (bytesLeft - L) - 1 = addr + bytesLeft - 1 := by omega
            obtain ⟨k6a, k6b⟩ := k6 (by omega)
            rw [heq] at k6a k6b
            exact ⟨k6a, k6b⟩
        · -- the claim statement never reaches bytesLeft = 0 here
          intro h
          exact absurd h h0
        · -- write_page call trace
          rw [if_neg h0]
          have hltw : writePagesOf (if lastPage ≠ addr / ps
              then [PrimCall.readPage (addr / ps)] else []) = [] := by
            by_cases h : lastPage ≠ addr / ps
            · rw [if_pos h]; rfl
            · rw [if_neg h]; rfl
          show writePagesOf ((if lastPage ≠ addr / ps
              then [PrimCall.readPage (addr / ps)] else []) ++
              PrimCall.writePage (addr / ps) PB2 :: (programLoop ps buffer fuel PB2 (addr / ps)
                FL2 (bufpos + L) (addr + L) (bytesLeft - L)).trace) = _
          rw [writePagesOf_append, hltw, List.nil_append]
          show addr / ps :: writePagesOf (programLoop ps buffer fuel PB2 (addr / ps)
              FL2 (bufpos + L) (addr + L) (bytesLeft - L)).trace = _
          rw [k8]
          by_cases hend : bytesLeft - L = 0
          · have hbeq : bytesLeft = L := by omega
            have hplast : (addr + bytesLeft - 1) / ps = addr / ps := by
              have he : addr + bytesLeft - 1 = ps * (addr / ps) + (addr % ps + bytesLeft - 1) := by
                omega
              rw [he, div_eq_page ps _ _ (by omega)]
            rw [if_pos hend, hplast]
            have hone : addr / ps + 1 - addr / ps = 1 := by omega
            rw [hone]
            rfl
          · have hLps : L = ps - addr % ps := by omega
            have haddr2 : addr + L = ps * (addr / ps + 1) := by omega
            have hdiv2 : (addr + L) / ps = addr / ps + 1 := by
              have := div_eq_page ps (addr / ps + 1) 0 hps
              rw [Nat.add_zero] at this
              rw [haddr2, this]
            have heq : addr + L + (bytesLeft - L) - 1 = addr + bytesLeft - 1 := by omega
            have hpge : addr / ps + 1 ≤ (addr + bytesLeft - 1) / ps := by
              rw [← hdiv2]
              exact Nat.div_le_div_right (by omega)
            rw [if_neg hend, heq, hdiv2]
            have hn : (addr + bytesLeft - 1) / ps + 1 - addr / ps =
                ((addr + bytesLeft - 1) / ps + 1 - (addr / ps + 1)) + 1 := by omega
            rw [hn, List.range'_succ (addr / ps) _ 1]
        · -- read_page call trace
          rw [if_neg h0]
          have hltr : readPagesOf (if lastPage ≠ addr / ps
              then [PrimCall.readPage (addr / ps)] else []) =
              (if lastPage = addr / ps then [] else [addr / ps]) := by
            by_cases h : lastPage = addr / ps
            · rw [if_neg (not_not_intro h), if_pos h]; rfl
            · rw [if_pos h, if_neg h]; rfl
          show readPagesOf ((if lastPage ≠ addr / ps
              then [PrimCall.readPage (addr / ps)] else []) ++
              PrimCall.writePage (addr / ps) PB2 :: (programLoop ps buffer fuel PB2 (addr / ps)
                FL2 (bufpos + L) (addr + L) (bytesLeft - L)).trace) = _
          rw [readPagesOf_append, hltr]
          have hwcons : readPagesOf (PrimCall.writePage (addr / ps) PB2 ::
              (programLoop ps buffer fuel PB2 (addr / ps)
                FL2 (bufpos + L) (addr + L) (bytesLeft - L)).trace) =
              readPagesOf (programLoop ps buffer fuel PB2 (addr / ps)
                FL2 (bufpos + L) (addr + L) (bytesLeft - L)).trace := rfl
          rw [hwcons, k9]
          by_cases hend : bytesLeft - L = 0
          · have hbeq : bytesLeft = L := by omega
            have hplast : (addr + bytesLeft - 1) / ps = addr / ps := by
              have he : addr + bytesLeft - 1 = ps * (addr / ps) + (addr % ps + bytesLeft - 1) := by
                omega
              rw [he, div_eq_page ps _ _ (by omega)]
            simp only [if_pos hend]
            rw [hplast]
            by_cases h : addr / ps = (addr + L) / ps
            · simp only [if_pos h]
              by_cases hcache : lastPage = addr / ps
              · simp only [if_pos hcache]
                have hone : addr / ps + 1 - addr / ps - 1 = 0 := by omega
                rw [hone]
                rfl
              · simp only [if_neg hcache]
                have hone : addr / ps + 1 - addr / ps = 1 := by omega
                rw [hone]
                rfl
            · simp only [if_neg h]
              by_cases hcache : lastPage = addr / ps
              · simp only [if_pos hcache]
                have hone : addr / ps + 1 - addr / ps - 1 = 0 := by omega
                rw [hone]
                rfl
              · simp only [if_neg hcache]
                have hone : addr / ps + 1 - addr / ps = 1 := by omega
                rw [hone]
                rfl
          · have hLps : L = ps - addr % ps := by omega
            have haddr2 : addr + L = ps * (addr / ps + 1) := by omega
            have hdiv2 : (addr + L) / ps = addr / ps + 1 := by
              have := div_eq_page ps (addr / ps + 1) 0 hps
              rw [Nat.add_zero] at this
              rw [haddr2, this]
            have heq : addr + L + (bytesLeft - L) - 1 = addr + bytesLeft - 1 := by omega
            have hpge : addr / ps + 1 ≤ (addr + bytesLeft - 1) / ps := by
              rw [← hdiv2]
              exact Nat.div_le_div_right (by omega)
            simp only [if_neg hend]
            rw [heq, hdiv2]
            rw [if_neg (show ¬(addr / ps = addr / ps + 1) by omega)]
            by_cases hcache : lastPage = addr / ps
            · simp only [if_pos hcache]
              rw [List.nil_append]
              congr 1
            · simp only [if_neg hcache]
              show addr / ps :: List.range' (addr / ps + 1)
                ((addr + bytesLeft - 1) / ps + 1 - (addr / ps + 1)) = _
              have hn : (addr + bytesLeft - 1) / ps + 1 - addr / ps =
                  ((addr + bytesLeft - 1) / ps + 1 - (addr / ps + 1)) + 1 := by omega
              rw [hn, List.range'_succ (addr / ps) _ 1]

theorem readLoop_ok (ps : Nat) (flash : Flash) (fuel : Nat) (out pb : Nat → Nat)
    (lastPage : Nat) (bufpos addr bytesLeft : Nat)
    (hps : 0 < ps) (hfuel : bytesLeft ≤ fuel) (hr : ∀ p, flash.readErr p = 0) :
    (readLoop ps flash fuel out pb lastPage bufpos addr bytesLeft).code = BD_ERROR_OK ∧
    ((lastPage = addr / ps → pb = flash.pages (addr / ps)) →
      ∀ i, bufpos ≤ i → i < bufpos + bytesLeft →
        (readLoop ps flash fuel out pb lastPage bufpos addr bytesLeft).out i =
          flash.pages ((addr + (i - bufpos)) / ps) ((addr + (i - bufpos)) % ps)) ∧
    (∀ i, i < bufpos ∨ bufpos + bytesLeft ≤ i →
      (readLoop ps flash fuel out pb lastPage bufpos addr bytesLeft).out i = out i) ∧
    (0 < bytesLeft →
      (readLoop ps flash fuel out pb lastPage bufpos addr bytesLeft).last_page =
        (addr + bytesLeft - 1) / ps ∧
      ((lastPage = addr / ps → pb = flash.pages (addr / ps)) →
        (readLoop ps flash fuel out pb lastPage bufpos addr bytesLeft).pagebuffer =
          flash.pages ((addr + bytesLeft - 1) / ps))) ∧
    (bytesLeft = 0 →
      readLoop ps flash fuel out pb lastPage bufpos addr bytesLeft =
        { code := BD_ERROR_OK, out := out, pagebuffer := pb, last_page := lastPage
          trace := [] }) ∧
    writePagesOf (readLoop ps flash fuel out pb lastPage bufpos addr bytesLeft).trace = [] ∧
    readPagesOf (readLoop ps flash fuel out pb lastPage bufpos addr bytesLeft).trace =
      (if lastPage = addr / ps then
        List.range' (addr / ps + 1)
          ((if bytesLeft = 0 then 0 else (addr + bytesLeft - 1) / ps + 1 - addr / ps) - 1)
       else
        List.range' (addr / ps)
          (if bytesLeft = 0 then 0 else (addr + bytesLeft - 1) / ps + 1 - addr / ps)) := by
  induction fuel generalizing out pb lastPage bufpos addr bytesLeft with
  | zero =>
      have h0 : bytesLeft = 0 := Nat.le_zero.mp hfuel
      subst h0
      refine ⟨rfl, ?_, ?_, ?_, ?_, ?_, ?_⟩
      · intro _ i h1 h2; omega
      · intro i hi; rfl
      · intro h; omega
      · intro _; rfl
      · simp [readLoop, writePagesOf]
      · by_cases hcache : lastPage = addr / ps
        · simp [readLoop, readPagesOf, hcache]
        · simp [readLoop, readPagesOf, hcache]
  | succ fuel ih =>
      by_cases h0 : bytesLeft = 0
      · subst h0
        refine ⟨rfl, ?_, ?_, ?_, ?_, ?_, ?_⟩
        · intro _ i h1 h2; omega
        · intro i hi; rfl
        · intro h; omega
        · intro _; rfl
        · simp [readLoop, writePagesOf]
        · by_cases hcache : lastPage = addr / ps
          · simp [readLoop, readPagesOf, hcache]
          · simp [readLoop, readPagesOf, hcache]
      · have hoff : addr % ps < ps := Nat.mod_lt _ hps
        have haddr : ps * (addr / ps) + addr % ps = addr := Nat.div_add_mod addr ps
        have hmulsucc : ps * (addr / ps + 1) = ps * (addr / ps) + ps := Nat.mul_succ ps _
        simp only [readLoop]
        rw [if_neg h0]
        rw [if_neg (show ¬(lastPage ≠ addr / ps ∧ flash.readErr (addr / ps) ≠ 0) by
          simp [hr (addr / ps)])]
        set L := min (ps - addr % ps) bytesLeft with hLdef
        have hlen1 : 1 ≤ L := by omega
        have hlenle : L ≤ bytesLeft := Nat.min_le_right _ _
        have hlenps : L ≤ ps - addr % ps := Nat.min_le_left _ _
        set PBL := (if lastPage ≠ addr / ps then flash.pages (addr / ps) else pb) with hPBLdef
        set OUT2 := memcpy out bufpos PBL (addr % ps) L with hOUT2def
        obtain ⟨k1, k2, k3, k4, k5, k6, k7⟩ :=
          ih OUT2 PBL (addr / ps) (bufpos + L) (addr + L) (bytesLeft - L) (by omega)
        refine ⟨k1, ?_, ?_, ?_, ?_, ?_, ?_⟩
        · -- the requested bytes land in the destination buffer
          intro hc0 i h1 h2
          have hpbl : PBL = flash.pages (addr / ps) := by
            rw [hPBLdef]
            by_cases h : lastPage = addr / ps
            · rw [if_neg (not_not_intro h)]
              exact hc0 h
            · rw [if_pos h]
          have hgrec : addr / ps = (addr + L) / ps → PBL = flash.pages ((addr + L) / ps) := by
            intro h
            rw [← h]
            exact hpbl
          by_cases hfirst : i < bufpos + L
          · have h3 := k3 i (Or.inl hfirst)
            rw [h3, hOUT2def]
            show (if bufpos ≤ i ∧ i < bufpos + L
              then PBL (addr % ps + (i - bufpos)) else out i) = _
            rw [if_pos ⟨h1, hfirst⟩, hpbl]
            have hA : addr + (i - bufpos) = ps * (addr / ps) + (addr % ps + (i - bufpos)) := by
              omega
            rw [hA, div_eq_page ps _ _ (by omega), mod_eq_off ps _ _ (by omega)]
          · have h2r := k2 hgrec i (by omega) (by omega)
            have hX : addr + L + (i - (bufpos + L)) = addr + (i - bufpos) := by omega
            rw [hX] at h2r
            exact h2r
        · -- bytes outside the request keep their prior destination values
          intro i hi
          have h3 := k3 i (by omega)
          rw [h3, hOUT2def]
          show (if bufpos ≤ i ∧ i < bufpos + L
            then PBL (addr % ps + (i - bufpos)) else out i) = _
          rw [if_neg (by omega)]
        · -- final cached page
          intro hbl
          by_cases hend : bytesLeft - L = 0
          · have hbeq : bytesLeft = L := by omega
            have hplast : (addr + bytesLeft - 1) / ps = addr / ps := by
              have he : addr + bytesLeft - 1 = ps * (addr / ps) + (addr % ps + bytesLeft - 1) := by
                omega
              rw [he, div_eq_page ps _ _ (by omega)]
            rw [hplast]
            constructor
            · show (readLoop ps flash fuel OUT2 PBL (addr / ps)
                (bufpos + L) (addr + L) (bytesLeft - L)).last_page = addr / ps
              rw [k5 hend]
            · intro hc0
              have hpbl : PBL = flash.pages (addr / ps) := by
                rw [hPBLdef]
                by_cases h : lastPage = addr / ps
                · rw [if_neg (not_not_intro h)]
                  exact hc0 h
                · rw [if_pos h]
              show (readLoop ps flash fuel OUT2 PBL (addr / ps)
                (bufpos + L) (addr + L) (bytesLeft - L)).pagebuffer = flash.pages (addr / ps)
              rw [k5 hend]
              exact hpbl
          · have hLps : L = ps - addr % ps := by omega
            have haddr2 : addr + L = ps * (addr / ps + 1) := by omega
            have hdiv2 : (addr + L) / ps = addr / ps + 1 := by
              have := div_eq_page ps (addr / ps + 1) 0 hps
              rw [Nat.add_zero] at this
              rw [haddr2, this]
            have heq : addr + L + (bytesLeft - L) - 1 = addr + bytesLeft - 1 := by omega
            obtain ⟨k4a, k4b⟩ := k4 (by omega)
            rw [heq] at k4a k4b
            refine ⟨k4a, fun _ => k4b ?_⟩
            intro h
            rw [hdiv2] at h
            omega
        · intro h
          exact absurd h h0
        · -- no write_page calls
          show writePagesOf ((if lastPage ≠ addr / ps
              then [PrimCall.readPage (addr / ps)] else []) ++
              (readLoop ps flash fuel OUT2 PBL (addr / ps)
                (bufpos + L) (addr + L) (bytesLeft - L)).trace) = []
          rw [writePagesOf_append, k6]
          by_cases h : lastPage ≠ addr / ps
          · rw [if_pos h]; rfl
          · rw [if_neg h]; rfl
        · -- read_page call trace
          rw [if_neg h0]
          have hltr : readPagesOf (if lastPage ≠ addr / ps
              then [PrimCall.readPage (addr / ps)] else []) =
              (if lastPage = addr / ps then [] else [addr / ps]) := by
            by_cases h : lastPage = addr / ps
            · rw [if_neg (not_not_intro h), if_pos h]; rfl
            · rw [if_pos h, if_neg h]; rfl
          show readPagesOf ((if lastPage ≠ addr / ps
              then [PrimCall.readPage (addr / ps)] else []) ++
              (readLoop ps flash fuel OUT2 PBL (addr / ps)
                (bufpos + L) (addr + L) (bytesLeft - L)).trace) = _
          rw [readPagesOf_append, hltr, k7]
          by_cases hend : bytesLeft - L = 0
          · have hbeq : bytesLeft = L := by omega
            have hplast : (addr + bytesLeft - 1) / ps = addr / ps := by
              have he : addr + bytesLeft - 1 = ps * (addr / ps) + (addr % ps + bytesLeft - 1) := by
                omega
              rw [he, div_eq_page ps _ _ (by omega)]
            simp only [if_pos hend]
            rw [hplast]
            by_cases h : addr / ps = (addr + L) / ps
            · simp only [if_pos h]
              by_cases hcache : lastPage = addr / ps
              · simp only [if_pos hcache]
                have hone : addr / ps + 1 - addr / ps - 1 = 0 := by omega
                rw [hone]
                rfl
              · simp only [if_neg hcache]
                have hone : addr / ps + 1 - addr / ps = 1 := by omega
                rw [hone]
                rfl
            · simp only [if_neg h]
              by_cases hcache : lastPage = addr / ps
              · simp only [if_pos hcache]
                have hone : addr / ps + 1 - addr / ps - 1 = 0 := by omega
                rw [hone]
                rfl
              · simp only [if_neg hcache]
                have hone : addr / ps + 1 - addr / ps = 1 := by omega
                rw [hone]
                rfl
          · have hLps : L = ps - addr % ps := by omega
            have haddr2 : addr + L = ps * (addr / ps + 1) := by omega
            have hdiv2 : (addr + L) / ps = addr / ps + 1 := by
              have := div_eq_page ps (addr / ps + 1) 0 hps
              rw [Nat.add_zero] at this
              rw [haddr2, this]
            have heq : addr + L + (bytesLeft - L) - 1 = addr + bytesLeft - 1 := by omega
            have hpge : addr / ps + 1 ≤ (addr + bytesLeft - 1) / ps := by
              rw [← hdiv2]
              exact Nat.div_le_div_right (by omega)
            simp only [if_neg hend]
            rw [heq, hdiv2]
            rw [if_neg (show ¬(addr / ps = addr / ps + 1) by omega)]
            by_cases hcache : lastPage = addr / ps
            · simp only [if_pos hcache]
              rw [List.nil_append]
              congr 1
            · simp only [if_neg hcache]
              show addr / ps :: List.range' (addr / ps + 1)
                ((addr + bytesLeft - 1) / ps + 1 - (addr / ps + 1)) = _
              have hn : (addr + bytesLeft - 1) / ps + 1 - addr / ps =
                  ((addr + bytesLeft - 1) / ps + 1 - (addr / ps + 1)) + 1 := by omega
              rw [hn, List.range'_succ (addr / ps) _ 1]

theorem readPagesOf_cons_read (i : Nat) (t : List PrimCall) :
    readPagesOf (PrimCall.readPage i :: t) = i :: readPagesOf t := rfl

theorem readPagesOf_cons_write (i : Nat) (d : Nat → Nat) (t : List PrimCall) :
    readPagesOf (PrimCall.writePage i d :: t) = readPagesOf t := rfl

theorem mem_of_readPagesOf {x : Nat} {t : List PrimCall} (h : x ∈ readPagesOf t) :
    PrimCall.readPage x ∈ t := by
  induction t with
  | nil => simp [readPagesOf] at h
  | cons c t ih =>
      cases c with
      | readPage i =>
          rw [readPagesOf_cons_read] at h
          rcases List.mem_cons.mp h with h | h
          · subst h
            exact List.mem_cons_self _ _
          · exact List.mem_cons_of_mem _ (ih h)
      | writePage i d =>
          rw [readPagesOf_cons_write] at h
          exact List.mem_cons_of_mem _ (ih h)

/-- Top-level characterisation of a successful `program` call on an
initialised translator with a fault-free primitive. -/
theorem program_ok (st : AT45State) (flash : Flash) (pb buffer : Nat → Nat)
    (addr sz : Nat) (hbuf : st.pagebuffer = some pb) (hps : 0 < st.pagesize)
    (hr : ∀ p, flash.readErr p = 0) (hw : ∀ p, flash.writeErr p = 0) :
    (program st flash buffer addr sz).code = BD_ERROR_OK ∧
    (program st flash buffer addr sz).st.pagesize = st.pagesize ∧
    (program st flash buffer addr sz).st.totalsize = st.totalsize ∧
    (∃ pb2, (program st flash buffer addr sz).st.pagebuffer = some pb2) ∧
    (program st flash buffer addr sz).flash.readErr = flash.readErr ∧
    (program st flash buffer addr sz).flash.writeErr = flash.writeErr ∧
    (∀ p o, o < st.pagesize → addr ≤ st.pagesize * p + o →
      st.pagesize * p + o < addr + sz →
      (program st flash buffer addr sz).flash.pages p o =
        buffer (st.pagesize * p + o - addr)) ∧
    ((st.last_page = addr / st.pagesize → pb = flash.pages (addr / st.pagesize)) →
      ∀ p o, o < st.pagesize →
        (st.pagesize * p + o < addr ∨ addr + sz ≤ st.pagesize * p + o) →
        (program st flash buffer addr sz).flash.pages p o = flash.pages p o) ∧
    (0 < sz →
      (program st flash buffer addr sz).st.last_page = (addr + sz - 1) / st.pagesize ∧
      (program st flash buffer addr sz).st.pagebuffer =
        some ((program st flash buffer addr sz).flash.pages
          ((addr + sz - 1) / st.pagesize))) ∧
    writePagesOf (program st flash buffer addr sz).trace =
      List.range' (addr / st.pagesize)
        (if sz = 0 then 0 else (addr + sz - 1) / st.pagesize + 1 - addr / st.pagesize) ∧
    readPagesOf (program st flash buffer addr sz).trace =
      (if st.last_page = addr / st.pagesize then
        List.range' (addr / st.pagesize + 1)
          ((if sz = 0 then 0
            else (addr + sz - 1) / st.pagesize + 1 - addr / st.pagesize) - 1)
       else
        List.range' (addr / st.pagesize)
          (if sz = 0 then 0
           else (addr + sz - 1) / st.pagesize + 1 - addr / st.pagesize)) := by
  obtain ⟨k1, k2, k3, k4, k5, k6, k7, k8, k9⟩ :=
    programLoop_ok st.pagesize buffer sz pb st.last_page flash 0 addr sz hps
      (Nat.le_refl sz) hr hw
  simp only [program, hbuf]
  refine ⟨k1, trivial, trivial, ⟨_, rfl⟩, k2, k3, ?_, ?_, ?_, k8, k9⟩
  · intro p o ho hlo hhi
    have h := k4 p o ho hlo hhi
    rw [Nat.zero_add] at h
    exact h
  · intro hc0 p o ho hout
    exact k5 hc0 p o ho hout
  · intro hsz
    obtain ⟨k6a, k6b⟩ := k6 hsz
    exact ⟨k6a, by rw [k6b]⟩

/-- Top-level characterisation of a successful `read` call on an
initialised translator with a fault-free primitive. -/
theorem read_ok (st : AT45State) (flash : Flash) (pb dest : Nat → Nat)
    (addr sz : Nat) (hbuf : st.pagebuffer = some pb) (hps : 0 < st.pagesize)
    (hr : ∀ p, flash.readErr p = 0) :
    (read st flash dest addr sz).code = BD_ERROR_OK ∧
    ((st.last_page = addr / st.pagesize → pb = flash.pages (addr / st.pagesize)) →
      ∀ i, i < sz →
      (read st flash dest addr sz).out i =
        flash.pages ((addr + i) / st.pagesize) ((addr + i) % st.pagesize)) ∧
    (∀ i, sz ≤ i → (read st flash dest addr sz).out i = dest i) ∧
    (read st flash dest addr sz).st.pagesize = st.pagesize ∧
    (read st flash dest addr sz).st.totalsize = st.totalsize ∧
    (∃ pb2, (read st flash dest addr sz).st.pagebuffer = some pb2) ∧
    (0 < sz →
      (read st flash dest addr sz).st.last_page = (addr + sz - 1) / st.pagesize ∧
      ((st.last_page = addr / st.pagesize → pb = flash.pages (addr / st.pagesize)) →
        (read st flash dest addr sz).st.pagebuffer =
          some (flash.pages ((addr + sz - 1) / st.pagesize)))) ∧
    (read st flash dest addr sz).flash = flash ∧
    writePagesOf (read st flash dest addr sz).trace = [] ∧
    readPagesOf (read st flash dest addr sz).trace =
      (if st.last_page = addr / st.pagesize then
        List.range' (addr / st.pagesize + 1)
          ((if sz = 0 then 0
            else (addr + sz - 1) / st.pagesize + 1 - addr / st.pagesize) - 1)
       else
        List.range' (addr / st.pagesize)
          (if sz = 0 then 0
           else (addr + sz - 1) / st.pagesize + 1 - addr / st.pagesize)) := by
  obtain ⟨k1, k2, k3, k4, k5, k6, k7⟩ :=
    readLoop_ok st.pagesize flash sz dest pb st.last_page 0 addr sz hps
      (Nat.le_refl sz) hr
  simp only [read, hbuf]
  refine ⟨k1, ?_, ?_, trivial, trivial, ⟨_, rfl⟩, ?_, trivial, k6, k7⟩
  · intro hc0 i hi
    have h := k2 hc0 i (Nat.zero_le i) (by omega)
    rw [Nat.sub_zero] at h
    exact h
  · intro i hi
    exact k3 i (by omega)
  · intro hsz
    obtain ⟨k4a, k4b⟩ := k4 hsz
    exact ⟨k4a, fun hc0 => by rw [k4b hc0]⟩

/-- Uniform post-state facts for `runOp` (fault-free, initialised). -/
theorem runOp_post (k : OpKind) (st : AT45State) (flash : Flash) (pb b : Nat → Nat)
    (a s : Nat) (hbuf : st.pagebuffer = some pb) (hps : 0 < st.pagesize)
    (hr : ∀ i, flash.readErr i = 0) (hw : ∀ i, flash.writeErr i = 0) :
    (runOp k st flash b a s).code = BD_ERROR_OK ∧
    (runOp k st flash b a s).st.pagesize = st.pagesize ∧
    (∃ pb2, (runOp k st flash b a s).st.pagebuffer = some pb2) ∧
    (0 < s → (runOp k st flash b a s).st.last_page = (a + s - 1) / st.pagesize) ∧
    (runOp k st flash b a s).flash.readErr = flash.readErr ∧
    (runOp k st flash b a s).flash.writeErr = flash.writeErr := by
  cases k with
  | readOp =>
      obtain ⟨k1, k2, k3, k4, k5, k6, k7, k8, k9, k10⟩ :=
        read_ok st flash pb b a s hbuf hps hr
      simp only [runOp]
      exact ⟨k1, k4, k6, fun hs => (k7 hs).1, by rw [k8], by rw [k8]⟩
  | programOp =>
      obtain ⟨k1, k2, k3, k4, k5, k6, k7, k8, k9, k10, k11⟩ :=
        program_ok st flash pb b a s hbuf hps hr hw
      simp only [runOp]
      exact ⟨k1, k2, k4, fun hs => (k9 hs).1, k5, k6⟩

/-- `read_page` call pattern of one `runOp` (fault-free, initialised,
nonempty range). -/
theorem runOp_readPages (k : OpKind) (st : AT45State) (flash : Flash) (pb b : Nat → Nat)
    (a s : Nat) (hbuf : st.pagebuffer = some pb) (hps : 0 < st.pagesize)
    (hr : ∀ i, flash.readErr i = 0) (hw : ∀ i, flash.writeErr i = 0) (hs : 0 < s) :
    readPagesOf (runOp k st flash b a s).trace =
      (if st.last_page = a / st.pagesize then
        List.range' (a / st.pagesize + 1)
          ((a + s - 1) / st.pagesize + 1 - a / st.pagesize - 1)
       else
        List.range' (a / st.pagesize)
          ((a + s - 1) / st.pagesize + 1 - a / st.pagesize)) := by
  cases k with
  | readOp =>
      obtain ⟨k1, k2, k3, k4, k5, k6, k7, k8, k9, k10⟩ :=
        read_ok st flash pb b a s hbuf hps hr
      rw [if_neg (show ¬(s = 0) by omega)] at k10
      simp only [runOp]
      exact k10
  | programOp =>
      obtain ⟨k1, k2, k3, k4, k5, k6, k7, k8, k9, k10, k11⟩ :=
        program_ok st flash pb b a s hbuf hps hr hw
      rw [if_neg (show ¬(s = 0) by omega)] at k11
      simp only [runOp]
      exact k11

/-- **C2** (confirmed).  On an initialised translator with a fault-free
storage primitive, for every address `a` and size `s` with
`a + s ≤ total_size`, `program(buf, a, s)` followed by `read(out, a, s)`
succeeds and yields `out[0..s) = buf[0..s)`. -/
theorem c2_round_trip (st : AT45State) (flash : Flash) (pb buf dest : Nat → Nat)
    (a s : Nat) (hbuf : st.pagebuffer = some pb) (hps : 0 < st.pagesize)
    (hr : ∀ i, flash.readErr i = 0) (hw : ∀ i, flash.writeErr i = 0)
    (hbound : a + s ≤ st.totalsize) :
    (program st flash buf a s).code = BD_ERROR_OK ∧
    (read (program st flash buf a s).st (program st flash buf a s).flash
      dest a s).code = BD_ERROR_OK ∧
    ∀ i, i < s →
      (read (program st flash buf a s).st (program st flash buf a s).flash
        dest a s).out i = buf i := by
  obtain ⟨p1, p2, p3, ⟨pbx, px⟩, p4, p5, p6, p7, p8, p9, p10⟩ :=
    program_ok st flash pb buf a s hbuf hps hr hw
  by_cases hs : s = 0
  · subst hs
    obtain ⟨r1, r2, r3, r4, r5, r6, r7, r8, r9, r10⟩ :=
      read_ok (program st flash buf a 0).st (program st flash buf a 0).flash pbx dest a 0
        px (by rw [p2]; exact hps) (by intro i; rw [p4]; exact hr i)
    exact ⟨p1, r1, fun i hi => absurd hi (by omega)⟩
  · have hs' : 0 < s := Nat.pos_of_ne_zero hs
    obtain ⟨hlast, hpb1⟩ := p8 hs'
    obtain ⟨r1, r2, r3, r4, r5, r6, r7, r8, r9, r10⟩ :=
      read_ok (program st flash buf a s).st (program st flash buf a s).flash
        ((program st flash buf a s).flash.pages ((a + s - 1) / st.pagesize)) dest a s
        hpb1 (by rw [p2]; exact hps) (by intro i; rw [p4]; exact hr i)
    rw [p2] at r2
    have hguard : (program st flash buf a s).st.last_page = a / st.pagesize →
        (program st flash buf a s).flash.pages ((a + s - 1) / st.pagesize) =
        (program st flash buf a s).flash.pages (a / st.pagesize) := by
      intro h
      rw [hlast] at h
      rw [h]
    refine ⟨p1, r1, ?_⟩
    intro i hi
    rw [r2 hguard i hi]
    have hAi : st.pagesize * ((a + i) / st.pagesize) + (a + i) % st.pagesize = a + i :=
      Nat.div_add_mod (a + i) st.pagesize
    rw [p6 ((a + i) / st.pagesize) ((a + i) % st.pagesize)
      (Nat.mod_lt _ hps) (by omega) (by omega)]
    congr 1
    omega

theorem c2_round_trip_witness :
    (program demoSt4 demoFlash (fun i => i + 3) 1 5).code = BD_ERROR_OK ∧
    (read (program demoSt4 demoFlash (fun i => i + 3) 1 5).st
      (program demoSt4 demoFlash (fun i => i + 3) 1 5).flash (fun _ => 9) 1 5).code =
      BD_ERROR_OK ∧
    ∀ i, i < 5 →
      (read (program demoSt4 demoFlash (fun i => i + 3) 1 5).st
        (program demoSt4 demoFlash (fun i => i + 3) 1 5).flash (fun _ => 9) 1 5).out i =
        i + 3 :=
  c2_round_trip demoSt4 demoFlash (fun _ => 0) (fun i => i + 3) (fun _ => 9) 1 5
    rfl (by decide) (fun i => rfl) (fun i => rfl) (by decide)

/-- **C8** (confirmed).  On an initialised translator with a fault-free
primitive, a `read` or `program` over `[a, a + s)` with `s > 0` touches
exactly the pages `a / page_size .. (a + s - 1) / page_size` in ascending
order: `program` writes exactly that page list in order, both operations
load each page at most once, and the loads are exactly that page list
(minus the first page when it is already cached). -/
theorem c8_multi_page_span (st : AT45State) (flash : Flash) (pb buf dest : Nat → Nat)
    (a s : Nat) (hbuf : st.pagebuffer = some pb) (hps : 0 < st.pagesize)
    (hr : ∀ i, flash.readErr i = 0) (hw : ∀ i, flash.writeErr i = 0) (hs : 0 < s) :
    writePagesOf (read st flash dest a s).trace = [] ∧
    readPagesOf (read st flash dest a s).trace =
      (if st.last_page = a / st.pagesize then
        List.range' (a / st.pagesize + 1)
          ((a + s - 1) / st.pagesize + 1 - a / st.pagesize - 1)
       else
        List.range' (a / st.pagesize)
          ((a + s - 1) / st.pagesize + 1 - a / st.pagesize)) ∧
    writePagesOf (program st flash buf a s).trace =
      List.range' (a / st.pagesize) ((a + s - 1) / st.pagesize + 1 - a / st.pagesize) ∧
    readPagesOf (program st flash buf a s).trace =
      (if st.last_page = a / st.pagesize then
        List.range' (a / st.pagesize + 1)
          ((a + s - 1) / st.pagesize + 1 - a / st.pagesize - 1)
       else
        List.range' (a / st.pagesize)
          ((a + s - 1) / st.pagesize + 1 - a / st.pagesize)) := by
  obtain ⟨k1, k2, k3, k4, k5, k6, k7, k8, k9, k10⟩ :=
    read_ok st flash pb dest a s hbuf hps hr
  obtain ⟨q1, q2, q3, q4, q5, q6, q7, q8, q9, q10, q11⟩ :=
    program_ok st flash pb buf a s hbuf hps hr hw
  rw [if_neg (show ¬(s = 0) by omega)] at k10 q10 q11
  exact ⟨k9, k10, q10, q11⟩

theorem c8_multi_page_span_witness :
    writePagesOf (read demoSt4 demoFlash (fun _ => 9) 1 5).trace = [] ∧
    readPagesOf (read demoSt4 demoFlash (fun _ => 9) 1 5).trace = [0, 1, 2] ∧
    writePagesOf (program demoSt4 demoFlash (fun i => i + 3) 1 5).trace = [0, 1, 2] ∧
    readPagesOf (program demoSt4 demoFlash (fun i => i + 3) 1 5).trace = [0, 1, 2] := by
  obtain ⟨h1, h2, h3, h4⟩ := c8_multi_page_span demoSt4 demoFlash (fun _ => 0)
    (fun i => i + 3) (fun _ => 9) 1 5 rfl (by decide) (fun i => rfl) (fun i => rfl)
    (by decide)
  refine ⟨h1, h2.trans (by decide), h3.trans (by decide), h4.trans (by decide)⟩

/-- **C6** (confirmed).  After a successful `read`/`program` over a
nonempty range inside page `p` on an initialised, fault-free translator, a
second `read`/`program` over a nonempty range inside the same page `p`
issues no `read_page` call; a third operation over a nonempty range
starting in a different page `q` issues a fresh `read_page` for `q`. -/
theorem c6_cache_reuse (k1 k2 k3 : OpKind) (st : AT45State) (flash : Flash)
    (pb b1 b2 b3 : Nat → Nat) (a1 s1 a2 s2 a3 s3 p q : Nat)
    (hbuf : st.pagebuffer = some pb) (hps : 0 < st.pagesize)
    (hr : ∀ i, flash.readErr i = 0) (hw : ∀ i, flash.writeErr i = 0)
    (hs1 : 0 < s1) (_h1a : a1 / st.pagesize = p) (h1b : (a1 + s1 - 1) / st.pagesize = p)
    (hs2 : 0 < s2) (h2a : a2 / st.pagesize = p) (h2b : (a2 + s2 - 1) / st.pagesize = p)
    (hs3 : 0 < s3) (h3a : a3 / st.pagesize = q) (hq : q ≠ p) :
    readPagesOf (runOp k2 (runOp k1 st flash b1 a1 s1).st
      (runOp k1 st flash b1 a1 s1).flash b2 a2 s2).trace = [] ∧
    PrimCall.readPage q ∈ (runOp k3
      (runOp k2 (runOp k1 st flash b1 a1 s1).st
        (runOp k1 st flash b1 a1 s1).flash b2 a2 s2).st
      (runOp k2 (runOp k1 st flash b1 a1 s1).st
        (runOp k1 st flash b1 a1 s1).flash b2 a2 s2).flash b3 a3 s3).trace := by
  obtain ⟨j1, j2, ⟨pb1, j3⟩, j4, j5, j6⟩ := runOp_post k1 st flash pb b1 a1 s1 hbuf hps hr hw
  have hps1 : 0 < (runOp k1 st flash b1 a1 s1).st.pagesize := by rw [j2]; exact hps
  have hr1 : ∀ i, (runOp k1 st flash b1 a1 s1).flash.readErr i = 0 := by
    intro i; rw [j5]; exact hr i
  have hw1 : ∀ i, (runOp k1 st flash b1 a1 s1).flash.writeErr i = 0 := by
    intro i; rw [j6]; exact hw i
  have e2 := runOp_readPages k2 (runOp k1 st flash b1 a1 s1).st
    (runOp k1 st flash b1 a1 s1).flash pb1 b2 a2 s2 j3 hps1 hr1 hw1 hs2
  rw [j2, j4 hs1, h1b, h2a, h2b] at e2
  rw [if_pos rfl] at e2
  have hz : p + 1 - p - 1 = 0 := by omega
  rw [hz] at e2
  refine ⟨e2, ?_⟩
  obtain ⟨i1, i2, ⟨pb2, i3⟩, i4, i5, i6⟩ := runOp_post k2 (runOp k1 st flash b1 a1 s1).st
    (runOp k1 st flash b1 a1 s1).flash pb1 b2 a2 s2 j3 hps1 hr1 hw1
  have hps2 : 0 < (runOp k2 (runOp k1 st flash b1 a1 s1).st
      (runOp k1 st flash b1 a1 s1).flash b2 a2 s2).st.pagesize := by
    rw [i2, j2]; exact hps
  have hr2 : ∀ i, (runOp k2 (runOp k1 st flash b1 a1 s1).st
      (runOp k1 st flash b1 a1 s1).flash b2 a2 s2).flash.readErr i = 0 := by
    intro i; rw [i5]; exact hr1 i
  have hw2 : ∀ i, (runOp k2 (runOp k1 st flash b1 a1 s1).st
      (runOp k1 st flash b1 a1 s1).flash b2 a2 s2).flash.writeErr i = 0 := by
    intro i; rw [i6]; exact hw1 i
  have e3 := runOp_readPages k3 (runOp k2 (runOp k1 st flash b1 a1 s1).st
      (runOp k1 st flash b1 a1 s1).flash b2 a2 s2).st
    (runOp k2 (runOp k1 st flash b1 a1 s1).st
      (runOp k1 st flash b1 a1 s1).flash b2 a2 s2).flash pb2 b3 a3 s3 i3 hps2 hr2 hw2 hs3
  rw [i2, j2, i4 hs2, j2, h2b, h3a] at e3
  rw [if_neg (fun hh => hq hh.symm)] at e3
  have hqle : q ≤ (a3 + s3 - 1) / st.pagesize := by
    rw [← h3a]
    exact Nat.div_le_div_right (by omega)
  have hn3 : (a3 + s3 - 1) / st.pagesize + 1 - q =
      ((a3 + s3 - 1) / st.pagesize - q) + 1 := by omega
  rw [hn3, List.range'_succ q _ 1] at e3
  apply mem_of_readPagesOf
  rw [e3]
  exact List.mem_cons_self _ _

theorem c6_cache_reuse_witness :
    readPagesOf (runOp OpKind.readOp
      (runOp OpKind.programOp demoSt4 demoFlash (fun i => i + 1) 0 2).st
      (runOp OpKind.programOp demoSt4 demoFlash (fun i => i + 1) 0 2).flash
      (fun _ => 9) 0 1).trace = [] ∧
    PrimCall.readPage 1 ∈ (runOp OpKind.readOp
      (runOp OpKind.readOp
        (runOp OpKind.programOp demoSt4 demoFlash (fun i => i + 1) 0 2).st
        (runOp OpKind.programOp demoSt4 demoFlash (fun i => i + 1) 0 2).flash
        (fun _ => 9) 0 1).st
      (runOp OpKind.readOp
        (runOp OpKind.programOp demoSt4 demoFlash (fun i => i + 1) 0 2).st
        (runOp OpKind.programOp demoSt4 demoFlash (fun i => i + 1) 0 2).flash
        (fun _ => 9) 0 1).flash (fun _ => 8) 2 1).trace :=
  c6_cache_reuse OpKind.programOp OpKind.readOp OpKind.readOp demoSt4 demoFlash
    (fun _ => 0) (fun i => i + 1) (fun _ => 9) (fun _ => 8) 0 2 0 1 2 1 0 1
    rfl (by decide) (fun i => rfl) (fun i => rfl)
    (by decide) (by decide) (by decide) (by decide) (by decide) (by decide)
    (by decide) (by decide) (by decide)

end AT45
